import Mathlib

/-!
Verification of the note-detection core of `scripts/detect_notes.py`
(the mania2midi pipeline, stage c): row classification, segment
extraction, bar-line estimation, grid construction and quantization.

The embedding works over exact rational arithmetic.  A chunk's pixel
buffer is a list of rows, each row the list of max-channel brightness
values of its pixels; numpy reductions (`np.max`, `np.mean`, `np.std`,
boolean masks, `np.diff`-based run extraction) are modelled row-wise.
-/

namespace Mania2Midi

/-- Python's builtin `round` applied to an exact rational value:
round half to even (banker's rounding). -/
def pyRound (q : ℚ) : ℤ :=
  if q - (⌊q⌋ : ℚ) < 1/2 then ⌊q⌋
  else if 1/2 < q - (⌊q⌋ : ℚ) then ⌊q⌋ + 1
  else if ⌊q⌋ % 2 = 0 then ⌊q⌋ else ⌊q⌋ + 1

/-- Maximum pixel value of a row (`np.max` along the row); for the nonempty
rows of nonnegative pixel values produced by image decoding this equals the
true maximum. -/
def rowMax (r : List ℚ) : ℚ := r.foldr max 0

/-- Mean pixel value of a row (`np.mean` along the row). -/
def rowMean (r : List ℚ) : ℚ := r.sum / (r.length : ℚ)

/-- Population variance of a row.  `np.std(row) < c` for `0 ≤ c` is
equivalent to `rowVar row < c ^ 2`, since `np.std` is the nonnegative
square root of this quantity and squaring is monotone on nonnegatives. -/
def rowVar (r : List ℚ) : ℚ :=
  ((r.map fun x => (x - rowMean r) ^ 2).sum) / (r.length : ℚ)

/-- Bar-line candidate row: mean max-channel brightness of the full-width
row exceeds the raw threshold (`global_row_means > args.threshold`). -/
def isBarRow (threshold : ℚ) (r : List ℚ) : Bool :=
  decide (threshold < rowMean r)

/-- Note candidate row on a lane strip: the row-level AND of the
brightness check (`row_maxes > max(100, threshold - 50)`), the width/fill
check (`row_fill_ratios > 0.6` with fill threshold `0.8 * detection_thresh`)
and the solidity check (`row_stds < 80.0`, stated on the variance as
`rowVar < 80 ^ 2`). -/
def isNoteRow (threshold : ℚ) (r : List ℚ) : Bool :=
  let detection_thresh := max 100 (threshold - 50)
  let is_bright := decide (detection_thresh < rowMax r)
  let fill_thresh := detection_thresh * 0.8
  let row_bright_count := r.countP fun x => decide (fill_thresh < x)
  let is_wide := decide ((0.6 : ℚ) < (row_bright_count : ℚ) / (r.length : ℚ))
  let is_solid := decide (rowVar r < 80 ^ 2)
  is_bright && is_wide && is_solid

/-- Contiguous runs of `true` in a row mask, as `(start, stop)` pairs with
`stop` exclusive: the semantics of the source's edge detection on the
false-padded mask (`starts` where the padded mask steps 0→1, `ends` where it
steps 1→0, zipped in order). -/
def maskSegmentsAux : ℕ → Option ℕ → List Bool → List (ℕ × ℕ)
  | _, none, [] => []
  | i, some s, [] => [(s, i)]
  | i, none, b :: rest =>
      if b then maskSegmentsAux (i + 1) (some i) rest
      else maskSegmentsAux (i + 1) none rest
  | i, some s, b :: rest =>
      if b then maskSegmentsAux (i + 1) (some s) rest
      else (s, i) :: maskSegmentsAux (i + 1) none rest

/-- Runs of `true` in a mask, starting at index 0. -/
def maskSegments (mask : List Bool) : List (ℕ × ℕ) :=
  maskSegmentsAux 0 none mask

/-- Merge segments whose gap to the previous kept segment is strictly below
`merge_gap` (`starts[i] - curr_end < args.merge_gap`), carrying the current
merged `(curr_start, curr_end)`. -/
def mergeSegmentsAux (gap : ℤ) : ℕ → ℕ → List (ℕ × ℕ) → List (ℕ × ℕ)
  | cs, ce, [] => [(cs, ce)]
  | cs, ce, (s, e) :: rest =>
      if (s : ℤ) - (ce : ℤ) < gap then mergeSegmentsAux gap cs e rest
      else (cs, ce) :: mergeSegmentsAux gap s e rest

/-- Merge close segments, as done for note masks only. -/
def mergeSegments (gap : ℤ) : List (ℕ × ℕ) → List (ℕ × ℕ)
  | [] => []
  | (s, e) :: rest => mergeSegmentsAux gap s e rest

/-- Rows `gray[s:e]` of a chunk. -/
def blockRows (gray : List (List ℚ)) (s e : ℕ) : List (List ℚ) :=
  (gray.drop s).take (e - s)

/-- Number of pixels of a 2-D row block exceeding the raw threshold. -/
def blockBrightCount (threshold : ℚ) (rows : List (List ℚ)) : ℕ :=
  (rows.map fun r => r.countP fun x => decide (threshold < x)).sum

/-- Total number of pixels of a 2-D row block. -/
def blockSize (rows : List (List ℚ)) : ℕ :=
  (rows.map List.length).sum

/-- Fill ratio of the full-width 2-D block `gray[s:e]`
(`bright_pixels / total_pixels`). -/
def barFill (threshold : ℚ) (gray : List (List ℚ)) (s e : ℕ) : ℚ :=
  (blockBrightCount threshold (blockRows gray s e) : ℚ)
    / (blockSize (blockRows gray s e) : ℚ)

/-- Pass 1 of a chunk: the accepted bar-line segment centers (local
`center_y = start + h/2` coordinates), in mask order.  A segment is accepted
iff its height is under 10 rows and the full-width fill ratio exceeds 0.8. -/
def barCentersOfChunk (threshold : ℚ) (gray : List (List ℚ)) : List ℚ :=
  (maskSegments (gray.map (isBarRow threshold))).filterMap fun se =>
    if se.2 - se.1 < 10 then
      if (0.8 : ℚ) < barFill threshold gray se.1 se.2 then
        some ((se.1 : ℚ) + ((se.2 - se.1 : ℕ) : ℚ) / 2)
      else none
    else none

/-- The optional run metadata record (`metadata.json`); a `none` field
models absence of the corresponding key. -/
structure Metadata where
  speed : Option ℚ
  fps : Option ℚ
  start_time : Option ℚ
deriving Repr, DecidableEq

/-- Derived time of a position: `start_time + (gy / speed) / fps` when all
three metadata fields are present, otherwise the previous value is kept. -/
def timeOf (md : Metadata) (old gy : ℚ) : ℚ :=
  match md.speed, md.fps, md.start_time with
  | some sp, some fp, some st => st + (gy / sp) / fp
  | _, _, _ => old

/-- A detected note record, with the fields written to `notes.json`. -/
structure Note where
  chunk_index : ℕ
  chunk_height : ℚ
  chunk_base_y : ℚ
  lane : ℕ
  y : ℚ
  h : ℚ
  global_y : ℚ
  time : ℚ
  type : String
deriving Repr, DecidableEq

/-- The detection configuration relevant to segment acceptance. -/
structure Config where
  threshold : ℚ
  minHeight : ℕ
  mergeGap : ℤ
deriving Repr, DecidableEq

/-- Pass 2 on one lane strip of a chunk: merged note segments are turned
into notes.  A segment is dropped when its height is below the minimum
height, or when its global Y center lies strictly within 5 px of a bar-line
detection collected so far (`accBars`). -/
def notesOfLane (cfg : Config) (md : Metadata) (chunkIdx : ℕ)
    (baseY height : ℚ) (accBars : List ℚ) (lane : ℕ)
    (strip : List (List ℚ)) : List Note :=
  (mergeSegments cfg.mergeGap
      (maskSegments (strip.map (isNoteRow cfg.threshold)))).filterMap fun se =>
    if se.2 - se.1 < cfg.minHeight then none
    else
      if accBars.any (fun b =>
          decide (|b - (baseY + (height - ((se.1 : ℚ) + ((se.2 - se.1 : ℕ) : ℚ) / 2)))| < 5)) then
        none
      else
        some { chunk_index := chunkIdx
               chunk_height := height
               chunk_base_y := baseY
               lane := lane
               y := (se.1 : ℚ) + ((se.2 - se.1 : ℕ) : ℚ) / 2
               h := ((se.2 - se.1 : ℕ) : ℚ)
               global_y := baseY + (height - ((se.1 : ℚ) + ((se.2 - se.1 : ℕ) : ℚ) / 2))
               time := timeOf md 0 (baseY + (height - ((se.1 : ℚ) + ((se.2 - se.1 : ℕ) : ℚ) / 2)))
               type := "hit" }

/-- One loaded chunk: the full-width grayscale buffer (for the bar-line
pass) and its lane strips `gray[:, x_start:x_end]` (for the note pass);
the column-slicing arithmetic is orthogonal to the claims verified here. -/
structure Chunk where
  gray : List (List ℚ)
  lanes : List (List (List ℚ))
deriving Repr

/-- Accumulated state of the chunk-processing loop: cumulative base
offset, bar-line detections so far, and notes so far. -/
structure ScanState where
  baseY : ℚ
  bars : List ℚ
  notes : List Note
deriving Repr

/-- Process one chunk: pass 1 appends this chunk's bar-line detections
(converted to global Y) to the accumulator, then pass 2 detects this
chunk's notes against the updated accumulator, and the base offset grows by
the chunk height. -/
def processChunk (cfg : Config) (md : Metadata) (st : ScanState)
    (idx : ℕ) (c : Chunk) : ScanState :=
  { baseY := st.baseY + (c.gray.length : ℚ)
    bars := st.bars ++ (barCentersOfChunk cfg.threshold c.gray).map
        (fun cy => st.baseY + ((c.gray.length : ℚ) - cy))
    notes := st.notes ++ (c.lanes.enum.map fun p =>
        notesOfLane cfg md idx st.baseY (c.gray.length : ℚ)
          (st.bars ++ (barCentersOfChunk cfg.threshold c.gray).map
              (fun cy => st.baseY + ((c.gray.length : ℚ) - cy)))
          p.1 p.2).flatten }

/-- Process the ordered chunk sequence from the initial state. -/
def runChunks (cfg : Config) (md : Metadata) (chunks : List Chunk) : ScanState :=
  chunks.enum.foldl (fun st p => processChunk cfg md st p.1 p.2)
    { baseY := 0, bars := [], notes := [] }

/-- Python's ascending `list.sort()`, modelled by insertion sort (both
produce the sorted permutation of the input). -/
def pySort (l : List ℚ) : List ℚ := l.insertionSort (· ≤ ·)

/-- Adjacent differences (`np.diff`). -/
def adjacentDiffs : List ℚ → List ℚ
  | a :: b :: rest => (b - a) :: adjacentDiffs (b :: rest)
  | _ => []

/-- `np.median`: middle element of the sorted list for odd length, mean of
the two middle elements for even length. -/
def npMedian (l : List ℚ) : ℚ :=
  let s := pySort l
  let n := s.length
  if n % 2 = 1 then s.getD (n / 2) 0
  else (s.getD (n / 2 - 1) 0 + s.getD (n / 2) 0) / 2

/-- De-duplication walk: keep a subsequent line iff its distance from the
last kept line strictly exceeds the threshold. -/
def dedupWalk (thresh : ℚ) : ℚ → List ℚ → List ℚ
  | _, [] => []
  | lastKept, y :: rest =>
      if thresh < y - lastKept then y :: dedupWalk thresh y rest
      else dedupWalk thresh lastKept rest

/-- Filter the sorted raw bar-line list: keep the first element, then every
element farther than half the raw median adjacent spacing from the last
kept one. -/
def filterLines (sortedRaw : List ℚ) : List ℚ :=
  match sortedRaw with
  | [] => []
  | a :: rest => a :: dedupWalk (0.5 * npMedian (adjacentDiffs sortedRaw)) a rest

/-- Adjacent spacings within ±20% of the median spacing
(`0.8 * median_diff < d < 1.2 * median_diff`). -/
def validDiffs (diffs : List ℚ) (median_diff : ℚ) : List ℚ :=
  diffs.filter fun d =>
    decide (0.8 * median_diff < d) && decide (d < 1.2 * median_diff)

/-- BPM from the robust average spacing, when `speed` and `fps` are
present: `seconds_per_line = (avg_diff_px / speed) / fps` and
`bpm = (60 / seconds_per_line) * beats_per_bar * bars_per_line`,
reported only if `seconds_per_line > 0` (else it stays 0). -/
def computeBPM (md : Metadata) (beats_per_bar bars_per_line : ℤ)
    (avg_diff_px : ℚ) : ℚ :=
  match md.speed, md.fps with
  | some sp, some fp =>
      if 0 < (avg_diff_px / sp) / fp then
        (60 / ((avg_diff_px / sp) / fp)) * ((beats_per_bar : ℚ) * (bars_per_line : ℚ))
      else 0
  | _, _ => 0

/-- Rounding to 2 decimal places (`round(bpm, 2)` at output time). -/
def roundTo2 (q : ℚ) : ℚ := (pyRound (q * 100) : ℚ) / 100

/-- Grid interpolation between consecutive filtered lines: with
`num_segments = round(dist / avg)`, append only `curr` when
`num_segments ≤ 1`, else insert `prev + k * (dist / num_segments)` for
`k = 1 .. num_segments - 1` before `curr`. -/
def interpAux (avg : ℚ) : ℚ → List ℚ → List ℚ
  | _, [] => []
  | prev, curr :: rest =>
      (if pyRound ((curr - prev) / avg) ≤ 1 then [curr]
       else
         ((List.range' 1 ((pyRound ((curr - prev) / avg)).toNat - 1)).map fun k : ℕ =>
             prev + (k : ℚ) * ((curr - prev) / ((pyRound ((curr - prev) / avg) : ℤ) : ℚ)))
           ++ [curr])
        ++ interpAux avg curr rest

/-- The interpolated grid: the first filtered line, then the per-pair
contributions. -/
def interpolateGrid (avg : ℚ) : List ℚ → List ℚ
  | [] => []
  | l0 :: rest => l0 :: interpAux avg l0 rest

/-- Backward extrapolation: while the first grid value exceeds
`min_note_y`, prepend a value one spacing below it.  The source's loop is
unguarded; it terminates because `avg_diff_px > 0` there, which the
embedding makes explicit in the loop condition to stay total. -/
def extrapolateBackward (avg min_note_y : ℚ) (grid : List ℚ) : List ℚ :=
  if h : 0 < avg ∧ min_note_y < grid.headD min_note_y then
    extrapolateBackward avg min_note_y ((grid.headD min_note_y - avg) :: grid)
  else grid
termination_by (⌈(grid.headD min_note_y - min_note_y) / avg⌉).toNat
decreasing_by
  simp only [List.headD_cons]
  have hne : avg ≠ 0 := ne_of_gt h.1
  have h1 : (grid.headD min_note_y - avg - min_note_y) / avg
      = (grid.headD min_note_y - min_note_y) / avg - 1 := by
    rw [show grid.headD min_note_y - avg - min_note_y
        = (grid.headD min_note_y - min_note_y) - avg by ring, sub_div, div_self hne]
  have h2 : (0 : ℚ) < (grid.headD min_note_y - min_note_y) / avg :=
    div_pos (by linarith [h.2]) h.1
  have h3 : 0 < ⌈(grid.headD min_note_y - min_note_y) / avg⌉ := Int.ceil_pos.mpr h2
  rw [h1, Int.ceil_sub_one]
  omega

/-- Forward extrapolation: while the last grid value is below
`max_note_y`, append a value one spacing above it; totality guarded as in
`extrapolateBackward`. -/
def extrapolateForward (avg max_note_y : ℚ) (grid : List ℚ) : List ℚ :=
  if h : 0 < avg ∧ grid.getLastD max_note_y < max_note_y then
    extrapolateForward avg max_note_y (grid ++ [grid.getLastD max_note_y + avg])
  else grid
termination_by (⌈(max_note_y - grid.getLastD max_note_y) / avg⌉).toNat
decreasing_by
  simp only [List.getLastD_concat]
  have hne : avg ≠ 0 := ne_of_gt h.1
  have h1 : (max_note_y - (grid.getLastD max_note_y + avg)) / avg
      = (max_note_y - grid.getLastD max_note_y) / avg - 1 := by
    rw [show max_note_y - (grid.getLastD max_note_y + avg)
        = (max_note_y - grid.getLastD max_note_y) - avg by ring, sub_div, div_self hne]
  have h2 : (0 : ℚ) < (max_note_y - grid.getLastD max_note_y) / avg :=
    div_pos (by linarith [h.2]) h.1
  have h3 : 0 < ⌈(max_note_y - grid.getLastD max_note_y) / avg⌉ := Int.ceil_pos.mpr h2
  rw [h1, Int.ceil_sub_one]
  omega

/-- Python's `min(list)`, with the source's `if detected_notes else 0`
defaulting for the empty list. -/
def pyMin : List ℚ → ℚ
  | [] => 0
  | x :: xs => xs.foldl min x

/-- Python's `max(list)`, with the source's `if detected_notes else 0`
defaulting for the empty list. -/
def pyMax : List ℚ → ℚ
  | [] => 0
  | x :: xs => xs.foldl max x

/-- Extrapolate the interpolated grid to cover the minimum and maximum
note global Y (both defaulting to 0 when no notes were detected). -/
def extrapolateGrid (avg : ℚ) (noteYs : List ℚ) (grid : List ℚ) : List ℚ :=
  extrapolateForward avg (pyMax noteYs)
    (extrapolateBackward avg (pyMin noteYs) grid)

/-- Insertion point of Python's `bisect.bisect_right` on a sorted list:
the number of elements `≤ x`. -/
def bisectRight (l : List ℚ) (x : ℚ) : ℕ :=
  l.countP fun a => decide (a ≤ x)

/-- The snapped fraction of a note position inside grid segment `i`:
`round(fraction * 192) / 192` with
`fraction = (gy - grid[i]) / (grid[i+1] - grid[i])`. -/
def snapFrac (grid : List ℚ) (gy : ℚ) (i : ℕ) : ℚ :=
  (pyRound (((gy - grid.getD i 0) / (grid.getD (i + 1) 0 - grid.getD i 0)) * 192) : ℚ) / 192

/-- The snapped global Y inside grid segment `i`:
`grid[i] + snapped_fraction * segment_height`. -/
def newGY (grid : List ℚ) (gy : ℚ) (i : ℕ) : ℚ :=
  grid.getD i 0 + snapFrac grid gy i * (grid.getD (i + 1) 0 - grid.getD i 0)

/-- The in-range update of a note at grid segment `i`: rewrite `global_y`,
the chunk-local `y`, and (when the metadata permits) `time`; all other
fields are kept. -/
def snapIn (grid : List ℚ) (md : Metadata) (note : Note) (i : ℕ) : Note :=
  { note with
      global_y := newGY grid note.global_y i
      y := note.chunk_height - (newGY grid note.global_y i - note.chunk_base_y)
      time := timeOf md note.time (newGY grid note.global_y i) }

/-- The Quantizer on one note: find `idx = bisect_right(grid, gy) - 1`; if
`idx` lies in `[0, len(grid) - 2]` snap the note inside segment `idx`,
else leave it unchanged. -/
def quantizeNote (grid : List ℚ) (md : Metadata) (note : Note) : Note :=
  if 0 ≤ (bisectRight grid note.global_y : ℤ) - 1
      ∧ (bisectRight grid note.global_y : ℤ) - 1 < (grid.length : ℤ) - 1 then
    snapIn grid md note ((bisectRight grid note.global_y : ℤ) - 1).toNat
  else note

/-- The whole post-detection stage (source lines 222-329): with fewer than
2 raw bar-line detections, or fewer than 2 filtered lines, or no valid
diffs, BPM stays 0, no grid is built and the notes pass through untouched;
otherwise the robust average spacing drives BPM, the
interpolated/extrapolated grid, and quantization of every note. -/
def processDetections (md : Metadata) (beats_per_bar bars_per_line : ℤ)
    (barLinesRaw : List ℚ) (notes : List Note) : ℚ × List ℚ × List Note :=
  if 1 < barLinesRaw.length then
    let filtered := filterLines (pySort barLinesRaw)
    if 1 < filtered.length then
      let diffs := adjacentDiffs filtered
      let median_diff := npMedian diffs
      let valid_diffs := validDiffs diffs median_diff
      if valid_diffs = [] then (0, [], notes)
      else
        let avg_diff_px := valid_diffs.sum / (valid_diffs.length : ℚ)
        let bpm := computeBPM md beats_per_bar bars_per_line avg_diff_px
        let final_grid := extrapolateGrid avg_diff_px (notes.map Note.global_y)
            (interpolateGrid avg_diff_px filtered)
        (bpm, final_grid, notes.map (quantizeNote final_grid md))
    else (0, [], notes)
  else (0, [], notes)

/-! ### Helper lemmas -/

theorem pyRound_intCast (k : ℤ) : pyRound (k : ℚ) = k := by
  unfold pyRound
  rw [Int.floor_intCast]
  norm_num

theorem floor_le_pyRound (q : ℚ) : ⌊q⌋ ≤ pyRound q := by
  unfold pyRound
  split_ifs <;> omega

theorem pyRound_le_floor_add_one (q : ℚ) : pyRound q ≤ ⌊q⌋ + 1 := by
  unfold pyRound
  split_ifs <;> omega

theorem pyRound_nearest (q : ℚ) (k : ℤ) :
    |q - (pyRound q : ℚ)| ≤ |q - (k : ℚ)| := by
  have hfl : (⌊q⌋ : ℚ) ≤ q := Int.floor_le q
  have hfu : q < ⌊q⌋ + 1 := Int.lt_floor_add_one q
  have hA : q - (k : ℚ) ≤ |q - (k : ℚ)| := le_abs_self _
  have hB : (k : ℚ) - q ≤ |q - (k : ℚ)| := by
    rw [abs_sub_comm]; exact le_abs_self _
  rcases le_or_lt k ⌊q⌋ with hk | hk
  · have hk' : (k : ℚ) ≤ (⌊q⌋ : ℚ) := by exact_mod_cast hk
    unfold pyRound
    split_ifs with h1 h2 h3
    · rw [abs_of_nonneg (by linarith)]; linarith
    · rw [abs_of_nonpos (by push_cast; linarith)]; push_cast; linarith
    · rw [abs_of_nonneg (by linarith)]; linarith
    · rw [abs_of_nonpos (by push_cast; linarith)]; push_cast; linarith
  · have hk' : (⌊q⌋ : ℚ) + 1 ≤ (k : ℚ) := by exact_mod_cast hk
    unfold pyRound
    split_ifs with h1 h2 h3
    · rw [abs_of_nonneg (by linarith)]; linarith
    · rw [abs_of_nonpos (by push_cast; linarith)]; push_cast; linarith
    · rw [abs_of_nonneg (by linarith)]; linarith
    · rw [abs_of_nonpos (by push_cast; linarith)]; push_cast; linarith

theorem bisectRight_le_length (l : List ℚ) (x : ℚ) :
    bisectRight l x ≤ l.length :=
  List.countP_le_length _

theorem get_le_iff_lt_bisect (x : ℚ) :
    ∀ (l : List ℚ), l.Sorted (· < ·) →
      ∀ i (hi : i < l.length),
        (l.get ⟨i, hi⟩ ≤ x ↔ i < bisectRight l x) := by
  intro l
  induction l with
  | nil => intro _ i hi; simp at hi
  | cons a t ih =>
    intro hl i hi
    rw [List.sorted_cons] at hl
    have hbr : bisectRight (a :: t) x
        = bisectRight t x + if a ≤ x then 1 else 0 := by
      simp [bisectRight, List.countP_cons]
    by_cases hax : a ≤ x
    · rw [hbr, if_pos hax]
      cases i with
      | zero =>
        have hstep : (a :: t).get ⟨0, hi⟩ = a := rfl
        rw [hstep]
        exact iff_of_true hax (by omega)
      | succ i =>
        have hi' : i < t.length := by simpa using Nat.lt_of_succ_lt_succ hi
        have hstep : (a :: t).get ⟨i + 1, hi⟩ = t.get ⟨i, hi'⟩ := rfl
        rw [hstep, ih hl.2 i hi']
        omega
    · have hxa : x < a := not_le.mp hax
      have ht0 : bisectRight t x = 0 := by
        simp only [bisectRight, List.countP_eq_zero]
        intro b hb
        simp only [decide_eq_true_eq]
        exact not_le.mpr (hxa.trans (hl.1 b hb))
      rw [hbr, if_neg hax, ht0]
      cases i with
      | zero =>
        have hstep : (a :: t).get ⟨0, hi⟩ = a := rfl
        rw [hstep]
        exact iff_of_false hax (by omega)
      | succ i =>
        have hi' : i < t.length := by simpa using Nat.lt_of_succ_lt_succ hi
        have hstep : (a :: t).get ⟨i + 1, hi⟩ = t.get ⟨i, hi'⟩ := rfl
        rw [hstep]
        exact iff_of_false
          (not_le.mpr (hxa.trans (hl.1 _ (t.get_mem i hi')))) (by omega)

theorem bisectRight_eq (l : List ℚ) (hl : l.Sorted (· < ·)) (x : ℚ) (k : ℕ)
    (hk : k ≤ l.length)
    (hlow : ∀ _ : 0 < k, l.get ⟨k - 1, by omega⟩ ≤ x)
    (hhigh : ∀ h : k < l.length, x < l.get ⟨k, h⟩) :
    bisectRight l x = k := by
  have hKle : bisectRight l x ≤ l.length := bisectRight_le_length l x
  rcases lt_trichotomy (bisectRight l x) k with h | h | h
  · have h0 : 0 < k := by omega
    have := (get_le_iff_lt_bisect x l hl (k - 1) (by omega)).mp (hlow h0)
    omega
  · exact h
  · have hklen : k < l.length := by omega
    have := (get_le_iff_lt_bisect x l hl k hklen).mpr (by omega)
    exact absurd this (not_le.mpr (hhigh hklen))

theorem quantizeNote_notin (grid : List ℚ) (md : Metadata) (note : Note)
    (h : bisectRight grid note.global_y = 0
      ∨ grid.length ≤ bisectRight grid note.global_y) :
    quantizeNote grid md note = note := by
  unfold quantizeNote
  rw [if_neg (by omega)]

theorem quantizeNote_in (grid : List ℚ) (md : Metadata) (note : Note) {K : ℕ}
    (hK : bisectRight grid note.global_y = K) (h1 : 1 ≤ K)
    (h2 : K < grid.length) :
    quantizeNote grid md note = snapIn grid md note (K - 1) := by
  unfold quantizeNote
  rw [hK, if_pos (by omega)]
  congr 1
  omega

theorem timeOf_timeOf (md : Metadata) (t g : ℚ) :
    timeOf md (timeOf md t g) g = timeOf md t g := by
  obtain ⟨sp, fp, st⟩ := md
  cases sp <;> cases fp <;> cases st <;> rfl

theorem snapIn_fixed (grid : List ℚ) (md : Metadata) (n : Note) (j : ℕ)
    (hgy : newGY grid n.global_y j = n.global_y)
    (hy : n.y = n.chunk_height - (n.global_y - n.chunk_base_y))
    (ht : timeOf md n.time n.global_y = n.time) :
    snapIn grid md n j = n := by
  unfold snapIn
  rw [hgy, ht, ← hy]

theorem newGY_fix (grid : List ℚ) (gy : ℚ) (i : ℕ)
    (hseg : grid.getD (i + 1) 0 - grid.getD i 0 ≠ 0) :
    newGY grid (newGY grid gy i) i = newGY grid gy i := by
  unfold newGY snapFrac
  set gs := grid.getD i 0
  set ge := grid.getD (i + 1) 0
  set r := pyRound (((gy - gs) / (ge - gs)) * 192) with hr
  have h1 : (gs + (r : ℚ) / 192 * (ge - gs) - gs) / (ge - gs) * 192 = (r : ℚ) := by
    field_simp
    ring
  rw [h1, pyRound_intCast]

theorem snap_cases (gs ge gy : ℚ) (hle : gs ≤ gy) (hlt : gy < ge) :
    (gs ≤ gs + (pyRound ((gy - gs) / (ge - gs) * 192) : ℚ) / 192 * (ge - gs)
      ∧ gs + (pyRound ((gy - gs) / (ge - gs) * 192) : ℚ) / 192 * (ge - gs) < ge)
    ∨ gs + (pyRound ((gy - gs) / (ge - gs) * 192) : ℚ) / 192 * (ge - gs) = ge := by
  have hsegpos : 0 < ge - gs := by linarith
  set f := (gy - gs) / (ge - gs) with hf
  have hf0 : 0 ≤ f := div_nonneg (by linarith) hsegpos.le
  have hf1 : f < 1 := (div_lt_one hsegpos).mpr (by linarith)
  have h0 : (0 : ℤ) ≤ ⌊f * 192⌋ := Int.floor_nonneg.mpr (by nlinarith)
  have h192 : ⌊f * 192⌋ < 192 := Int.floor_lt.mpr (by push_cast; nlinarith)
  have hr0 : (0 : ℤ) ≤ pyRound (f * 192) := le_trans h0 (floor_le_pyRound _)
  have hr192 : pyRound (f * 192) ≤ 192 := by
    have := pyRound_le_floor_add_one (f * 192)
    omega
  rcases eq_or_lt_of_le hr192 with he | hlt2
  · right
    rw [he]
    push_cast
    ring_nf
  · left
    have hc0 : (0 : ℚ) ≤ (pyRound (f * 192) : ℚ) := by exact_mod_cast hr0
    have hc1 : (pyRound (f * 192) : ℚ) < 192 := by exact_mod_cast hlt2
    constructor
    · nlinarith
    · nlinarith

/-- C9: quantization is idempotent: re-running the Quantizer on
already-snapped notes with the same sorted grid changes no field of any
note (the snapped fraction is already a multiple of 1/192, so `global_y`,
`y` and `time` are reproduced exactly). -/
theorem quantize_idempotent (grid : List ℚ) (hg : grid.Sorted (· < ·))
    (md : Metadata) (n : Note) :
    quantizeNote grid md (quantizeNote grid md n) = quantizeNote grid md n := by
  by_cases hin : 1 ≤ bisectRight grid n.global_y
      ∧ bisectRight grid n.global_y < grid.length
  case neg =>
    have hout : bisectRight grid n.global_y = 0
        ∨ grid.length ≤ bisectRight grid n.global_y := by omega
    rw [quantizeNote_notin grid md n hout, quantizeNote_notin grid md n hout]
  case pos =>
    obtain ⟨h1, h2⟩ := hin
    set K := bisectRight grid n.global_y with hKdef
    have hK1 : K - 1 < grid.length := by omega
    have hsucc : K - 1 + 1 = K := by omega
    have hgs : grid.getD (K - 1) 0 = grid.get ⟨K - 1, hK1⟩ :=
      List.getD_eq_get grid 0 hK1
    have hge' : grid.getD K 0 = grid.get ⟨K, h2⟩ := List.getD_eq_get grid 0 h2
    have hgeD : grid.getD (K - 1 + 1) 0 = grid.get ⟨K, h2⟩ := by rw [hsucc, hge']
    have hlt : grid.get ⟨K - 1, hK1⟩ < grid.get ⟨K, h2⟩ := by
      apply List.Sorted.get_strictMono hg
      simp only [Fin.mk_lt_mk]
      omega
    have hsegpos : 0 < grid.getD (K - 1 + 1) 0 - grid.getD (K - 1) 0 := by
      rw [hgeD, hgs]; linarith
    have hseg : grid.getD (K - 1 + 1) 0 - grid.getD (K - 1) 0 ≠ 0 :=
      ne_of_gt hsegpos
    have hgsle : grid.getD (K - 1) 0 ≤ n.global_y := by
      rw [hgs]
      exact (get_le_iff_lt_bisect n.global_y grid hg (K - 1) hK1).mpr (by omega)
    have hgegt : n.global_y < grid.getD (K - 1 + 1) 0 := by
      rw [hgeD]
      by_contra hc
      push_neg at hc
      have := (get_le_iff_lt_bisect n.global_y grid hg K h2).mp hc
      omega
    have hq1 : quantizeNote grid md n = snapIn grid md n (K - 1) :=
      quantizeNote_in grid md n hKdef.symm h1 h2
    rw [hq1]
    have hnew := snap_cases (grid.getD (K - 1) 0) (grid.getD (K - 1 + 1) 0)
      n.global_y hgsle hgegt
    rcases hnew with ⟨hge0, hlt0⟩ | heq
    · -- snapped value stays strictly inside the segment: same index again
      have hbis2 : bisectRight grid (snapIn grid md n (K - 1)).global_y = K := by
        apply bisectRight_eq grid hg _ K (le_of_lt h2)
        · intro _
          rw [← hgs]
          exact hge0
        · intro hlen
          rw [← hgeD]
          exact hlt0
      have hq2 := quantizeNote_in grid md (snapIn grid md n (K - 1)) hbis2 h1 h2
      rw [hq2]
      apply snapIn_fixed
      · exact newGY_fix grid n.global_y (K - 1) hseg
      · rfl
      · exact timeOf_timeOf md n.time _
    · -- snapped value hits the upper grid line exactly
      have heq' : (snapIn grid md n (K - 1)).global_y = grid.getD (K - 1 + 1) 0 :=
        heq
      have hbis2 : bisectRight grid (snapIn grid md n (K - 1)).global_y = K + 1 := by
        apply bisectRight_eq grid hg _ (K + 1) (by omega)
        · intro _
          rw [heq', hgeD]
          exact le_refl _
        · intro hlen
          rw [heq', hgeD]
          apply List.Sorted.get_strictMono hg
          simp only [Fin.mk_lt_mk]
          omega
      by_cases hKlen : K + 1 < grid.length
      · have hq2 := quantizeNote_in grid md (snapIn grid md n (K - 1)) hbis2
          (by omega) hKlen
        rw [hq2]
        apply snapIn_fixed
        · unfold newGY snapFrac
          simp only [Nat.add_sub_cancel]
          rw [heq', hsucc]
          have hz : (grid.getD K 0 - grid.getD K 0)
              / (grid.getD (K + 1) 0 - grid.getD K 0) * 192 = ((0 : ℤ) : ℚ) := by
            rw [sub_self, zero_div, zero_mul]
            norm_num
          rw [hz, pyRound_intCast]
          push_cast
          ring
        · rfl
        · exact timeOf_timeOf md n.time _
      · exact quantizeNote_notin grid md _ (Or.inr (by rw [hbis2]; omega))

theorem snapFrac_eq (grid : List ℚ) (gy : ℚ) (i : ℕ) :
    snapFrac grid gy i
      = (pyRound ((gy - grid.getD i 0)
          / (grid.getD (i + 1) 0 - grid.getD i 0) * 192) : ℚ) / 192 := rfl

theorem snapFrac_nearest (grid : List ℚ) (gy : ℚ) (i : ℕ) (m : ℤ) :
    |(gy - grid.getD i 0) / (grid.getD (i + 1) 0 - grid.getD i 0)
        - snapFrac grid gy i|
      ≤ |(gy - grid.getD i 0) / (grid.getD (i + 1) 0 - grid.getD i 0)
        - (m : ℚ) / 192| := by
  set F := (gy - grid.getD i 0) / (grid.getD (i + 1) 0 - grid.getD i 0) with hF
  have h := pyRound_nearest (F * 192) m
  have e1 : F - snapFrac grid gy i
      = (F * 192 - (pyRound (F * 192) : ℚ)) / 192 := by
    rw [snapFrac_eq, ← hF]
    ring
  have e2 : F - (m : ℚ) / 192 = (F * 192 - (m : ℚ)) / 192 := by ring
  rw [e1, e2, abs_div, abs_div]
  have h192 : |(192 : ℚ)| = 192 := by norm_num
  rw [h192]
  linarith

def nSample : Note :=
  { chunk_index := 0, chunk_height := 480, chunk_base_y := 0, lane := 2,
    y := 450, h := 4, global_y := 30, time := 0, type := "hit" }

/-- C9 witness at a concrete sorted grid and note. -/
theorem quantize_idempotent_witness :
    quantizeNote [0, 100] ⟨none, none, none⟩
        (quantizeNote [0, 100] ⟨none, none, none⟩ nSample)
      = quantizeNote [0, 100] ⟨none, none, none⟩ nSample :=
  quantize_idempotent [0, 100] (by norm_num [List.sorted_cons])
    ⟨none, none, none⟩ nSample

/-- C1: on a sorted grid the Quantizer finds the segment index as the
largest grid index whose value is ≤ the note's global Y (captured by the
bisection characterization in the first conjunct); a note whose index
falls outside `[0, len(grid) - 2]` is left completely unchanged; otherwise
the note's fraction inside the segment is snapped to the nearest multiple
of 1/192 and `global_y`, `y` and (when metadata contains `speed`, `fps`
and `start_time`) `time` are rewritten from the snapped position; `lane`
and `type` are never modified. -/
theorem quantizer_spec (grid : List ℚ) (md : Metadata) (note : Note)
    (hg : grid.Sorted (· < ·)) :
    (∀ i (hi : i < grid.length),
        (grid.get ⟨i, hi⟩ ≤ note.global_y ↔ i < bisectRight grid note.global_y))
    ∧ ((bisectRight grid note.global_y = 0
          ∨ grid.length ≤ bisectRight grid note.global_y) →
        quantizeNote grid md note = note)
    ∧ (∀ K, bisectRight grid note.global_y = K → 1 ≤ K →
        ∀ h2 : K < grid.length,
          (quantizeNote grid md note).global_y
              = grid.get ⟨K - 1, by omega⟩
                + snapFrac grid note.global_y (K - 1)
                  * (grid.get ⟨K, h2⟩ - grid.get ⟨K - 1, by omega⟩)
          ∧ (∃ m : ℤ, snapFrac grid note.global_y (K - 1) = (m : ℚ) / 192)
          ∧ (∀ m : ℤ,
              |(note.global_y - grid.get ⟨K - 1, by omega⟩)
                  / (grid.get ⟨K, h2⟩ - grid.get ⟨K - 1, by omega⟩)
                - snapFrac grid note.global_y (K - 1)|
              ≤ |(note.global_y - grid.get ⟨K - 1, by omega⟩)
                  / (grid.get ⟨K, h2⟩ - grid.get ⟨K - 1, by omega⟩)
                - (m : ℚ) / 192|)
          ∧ (quantizeNote grid md note).y
              = note.chunk_height
                - ((quantizeNote grid md note).global_y - note.chunk_base_y)
          ∧ ∀ sp fp st, md.speed = some sp → md.fps = some fp →
              md.start_time = some st →
              (quantizeNote grid md note).time
                = st + ((quantizeNote grid md note).global_y / sp) / fp)
    ∧ (quantizeNote grid md note).lane = note.lane
    ∧ (quantizeNote grid md note).type = note.type := by
  refine ⟨fun i hi => get_le_iff_lt_bisect note.global_y grid hg i hi,
    fun h => quantizeNote_notin grid md note h, ?_, ?_, ?_⟩
  · intro K hK hK1 h2
    have hq := quantizeNote_in grid md note hK hK1 h2
    have hKm : K - 1 < grid.length := by omega
    have hsucc : K - 1 + 1 = K := by omega
    have hgs : grid.getD (K - 1) 0 = grid.get ⟨K - 1, hKm⟩ :=
      List.getD_eq_get grid 0 hKm
    have hge : grid.getD (K - 1 + 1) 0 = grid.get ⟨K, h2⟩ := by
      rw [hsucc]; exact List.getD_eq_get grid 0 h2
    refine ⟨?_, ⟨_, snapFrac_eq grid note.global_y (K - 1)⟩, ?_, ?_, ?_⟩
    · rw [hq]
      show grid.getD (K - 1) 0
          + snapFrac grid note.global_y (K - 1)
            * (grid.getD (K - 1 + 1) 0 - grid.getD (K - 1) 0) = _
      rw [hgs, hge]
    · intro m
      rw [← hgs, ← hge]
      exact snapFrac_nearest grid note.global_y (K - 1) m
    · rw [hq]
      rfl
    · intro sp fp st hsp hfp hst
      rw [hq]
      show timeOf md note.time (newGY grid note.global_y (K - 1)) = _
      unfold timeOf
      rw [hsp, hfp, hst]
      rfl
  · unfold quantizeNote
    split <;> rfl
  · unfold quantizeNote
    split <;> rfl

/-- C1 witness: a concrete note at global Y 30 on grid [0, 100] is snapped
to 0 + (58/192) * 100 = 725/24. -/
theorem quantizer_spec_witness :
    (quantizeNote [0, 100] ⟨none, none, none⟩ nSample).global_y = 725 / 24 := by
  have hbis : bisectRight [0, 100] nSample.global_y = 1 := by
    simp [bisectRight, List.countP, List.countP.go, nSample]
    norm_num
  have h := (quantizer_spec [0, 100] ⟨none, none, none⟩ nSample
      (by norm_num [List.sorted_cons])).2.2.1 1 hbis (by norm_num)
      (by norm_num)
  rw [h.1]
  norm_num [snapFrac, pyRound, nSample, List.getD]

/-- C3: a row of a lane strip is classified as a note-candidate row iff
all three conditions hold simultaneously on that row: its maximum pixel
value exceeds max(100, threshold − 50); the fraction of the lane's pixels
in the row exceeding 80% of that brightness floor is greater than 0.6;
and the row's pixel-value standard deviation is below 80.0, stated
equivalently on the population variance as rowVar < 80². -/
theorem note_row_classification (threshold : ℚ) (row : List ℚ) :
    isNoteRow threshold row = true ↔
      (max 100 (threshold - 50) < rowMax row
        ∧ (0.6 : ℚ)
            < ((row.countP fun x =>
                decide ((0.8 : ℚ) * max 100 (threshold - 50) < x)) : ℚ)
              / (row.length : ℚ)
        ∧ rowVar row < 80 ^ 2) := by
  have hc : (row.countP fun x => decide (max 100 (threshold - 50) * 0.8 < x))
      = row.countP fun x => decide ((0.8 : ℚ) * max 100 (threshold - 50) < x) := by
    apply List.countP_congr
    intro a _
    simp [mul_comm]
  unfold isNoteRow
  simp only [Bool.and_eq_true, decide_eq_true_eq]
  rw [hc]
  exact and_assoc

theorem dedupWalk_chain (t : ℚ) : ∀ (rest : List ℚ) (lastKept : ℚ),
    List.Chain' (fun a b => t < b - a) (lastKept :: dedupWalk t lastKept rest) := by
  intro rest
  induction rest with
  | nil => intro lastKept; simp [dedupWalk]
  | cons y ys ih =>
    intro lastKept
    unfold dedupWalk
    split_ifs with hy
    · exact List.chain'_cons.mpr ⟨hy, ih y⟩
    · exact ih lastKept

theorem dedupWalk_sublist (t : ℚ) : ∀ (rest : List ℚ) (lastKept : ℚ),
    (dedupWalk t lastKept rest).Sublist rest := by
  intro rest
  induction rest with
  | nil => intro _; simp [dedupWalk]
  | cons y ys ih =>
    intro lastKept
    unfold dedupWalk
    split_ifs with hy
    · exact List.Sublist.cons₂ y (ih y)
    · exact List.Sublist.cons y (ih lastKept)

/-- C5: de-duplication keeps the first element of the sorted raw list;
walking once in order, every adjacent pair of kept lines is separated by
strictly more than half the median of the raw adjacent differences; the
kept lines are a subsequence of the input; and on the documented example
the raw detections [100, 102, 250, 400] filter to [100, 250, 400] with
102 dropped. -/
theorem dedup_spec (raw : List ℚ) :
    (filterLines raw).headD 0 = raw.headD 0
    ∧ List.Chain' (fun a b => 0.5 * npMedian (adjacentDiffs raw) < b - a)
        (filterLines raw)
    ∧ (filterLines raw).Sublist raw
    ∧ filterLines [100, 102, 250, 400] = [100, 250, 400] := by
  refine ⟨?_, ?_, ?_, ?_⟩
  · cases raw with
    | nil => rfl
    | cons a rest => rfl
  · cases raw with
    | nil => simp [filterLines]
    | cons a rest =>
      exact dedupWalk_chain (0.5 * npMedian (adjacentDiffs (a :: rest))) rest a
  · cases raw with
    | nil => simp [filterLines]
    | cons a rest =>
      exact List.Sublist.cons₂ a
        (dedupWalk_sublist (0.5 * npMedian (adjacentDiffs (a :: rest))) rest a)
  · norm_num [filterLines, dedupWalk, npMedian, pySort, adjacentDiffs,
      List.insertionSort, List.orderedInsert]

/-- C6: grid interpolation: for each adjacent pair (prev, curr) of
filtered lines with n = round((curr − prev)/avg_spacing), only curr is
appended when n ≤ 1, and when n ≥ 2 exactly n − 1 evenly spaced points
prev + k·(curr − prev)/n for k = 1..n−1 are inserted before curr; on the
documented example, filtered lines [0, 301] with avg_spacing 100 produce
the grid [0, 100.33.., 200.66.., 301] (2 interpolated points). -/
theorem interpAux_cons (avg prev curr : ℚ) (rest : List ℚ) :
    interpAux avg prev (curr :: rest)
      = (if pyRound ((curr - prev) / avg) ≤ 1 then [curr]
         else
           ((List.range' 1 ((pyRound ((curr - prev) / avg)).toNat - 1)).map
               fun k : ℕ =>
                 prev + (k : ℚ)
                   * ((curr - prev) / ((pyRound ((curr - prev) / avg) : ℤ) : ℚ)))
             ++ [curr])
        ++ interpAux avg curr rest := rfl

theorem interpolation_spec :
    (∀ (avg prev curr : ℚ) (rest : List ℚ),
        pyRound ((curr - prev) / avg) ≤ 1 →
          interpAux avg prev (curr :: rest) = curr :: interpAux avg curr rest)
    ∧ (∀ (avg prev curr : ℚ) (rest : List ℚ) (n : ℤ),
        pyRound ((curr - prev) / avg) = n → 2 ≤ n →
          interpAux avg prev (curr :: rest)
              = (((List.range' 1 (n.toNat - 1)).map fun k : ℕ =>
                    prev + (k : ℚ) * ((curr - prev) / (n : ℚ))) ++ [curr])
                ++ interpAux avg curr rest
          ∧ ((List.range' 1 (n.toNat - 1)).map fun k : ℕ =>
                prev + (k : ℚ) * ((curr - prev) / (n : ℚ))).length
              = n.toNat - 1)
    ∧ interpolateGrid 100 [0, 301] = [0, 301/3, 602/3, 301] := by
  refine ⟨?_, ?_, ?_⟩
  · intro avg prev curr rest h
    rw [interpAux_cons, if_pos h]
    rfl
  · intro avg prev curr rest n hn h2
    rw [interpAux_cons, hn, if_neg (by omega)]
    exact ⟨rfl, by simp⟩
  · norm_num [interpolateGrid, interpAux, pyRound, List.range']

/-- C6 witness: the pair (0, 301) with avg 100 rounds to n = 3 segments
and inserts exactly the 2 points 301/3 and 602/3. -/
theorem interpolation_spec_witness :
    interpAux 100 0 [301]
        = (((List.range' 1 2).map fun k : ℕ =>
              (0 : ℚ) + (k : ℚ) * ((301 - 0) / ((3 : ℤ) : ℚ))) ++ [301])
          ++ interpAux 100 301 []
    ∧ ((List.range' 1 2).map fun k : ℕ =>
          (0 : ℚ) + (k : ℚ) * ((301 - 0) / ((3 : ℤ) : ℚ))).length = 2 := by
  have h := interpolation_spec.2.1 100 0 301 [] 3 (by norm_num [pyRound])
    (by norm_num)
  exact h

/-- C7: whenever metadata contains fps and speed and a robust average
spacing was computed, seconds_per_line = (avg_spacing_px / speed) / fps
and, if it is positive, bpm = 60 / seconds_per_line × beats_per_bar ×
bars_per_line; on the documented example speed=10, fps=30,
avg_spacing_px=150, beats_per_bar=4, bars_per_line=1 the BPM is 480, and
it is reported as 480 after rounding to 2 decimal places. -/
theorem bpm_spec :
    (∀ (sp fp avg : ℚ) (st : Option ℚ) (bpb bpl : ℤ),
        0 < (avg / sp) / fp →
          computeBPM ⟨some sp, some fp, st⟩ bpb bpl avg
            = (60 / ((avg / sp) / fp)) * ((bpb : ℚ) * (bpl : ℚ)))
    ∧ computeBPM ⟨some 10, some 30, none⟩ 4 1 150 = 480
    ∧ roundTo2 (computeBPM ⟨some 10, some 30, none⟩ 4 1 150) = 480 := by
  refine ⟨?_, ?_, ?_⟩
  · intro sp fp avg st bpb bpl h
    show (if 0 < (avg / sp) / fp
        then (60 / ((avg / sp) / fp)) * ((bpb : ℚ) * (bpl : ℚ)) else 0) = _
    rw [if_pos h]
  · norm_num [computeBPM]
  · norm_num [roundTo2, computeBPM, pyRound]

/-- C7 witness: the documented example evaluated through the theorem. -/
theorem bpm_spec_witness :
    computeBPM ⟨some 10, some 30, none⟩ 4 1 150
      = (60 / ((150 / 10) / 30)) * ((4 : ℚ) * (1 : ℚ)) :=
  bpm_spec.1 10 30 150 none 4 1 (by norm_num)

/-- C8: with fewer than 2 raw bar-line detections (0 or 1), the BPM is
reported as 0 (also after the 2-decimal output rounding), the output grid
is empty, and every detected note is passed through unchanged, keeping
its raw unquantized global_y, y, h and initially computed time. -/
theorem degraded_result (md : Metadata) (bpb bpl : ℤ) (bars : List ℚ)
    (notes : List Note) (h : bars.length < 2) :
    processDetections md bpb bpl bars notes = (0, [], notes)
    ∧ roundTo2 0 = 0 := by
  constructor
  · unfold processDetections
    rw [if_neg (by omega)]
  · norm_num [roundTo2, pyRound]

/-- C8 witness: one raw bar line, one note, passed through untouched. -/
theorem degraded_result_witness :
    processDetections ⟨none, none, none⟩ 4 1 [5] [nSample]
        = (0, [], [nSample])
    ∧ roundTo2 0 = 0 :=
  degraded_result ⟨none, none, none⟩ 4 1 [5] [nSample] (by norm_num)

theorem extrapolateBackward_eq (avg m : ℚ) (grid : List ℚ) :
    extrapolateBackward avg m grid
      = if _ : 0 < avg ∧ m < grid.headD m then
          extrapolateBackward avg m ((grid.headD m - avg) :: grid)
        else grid := by
  rw [extrapolateBackward]

theorem extrapolateForward_eq (avg M : ℚ) (grid : List ℚ) :
    extrapolateForward avg M grid
      = if _ : 0 < avg ∧ grid.getLastD M < M then
          extrapolateForward avg M (grid ++ [grid.getLastD M + avg])
        else grid := by
  rw [extrapolateForward]

theorem extrapolateBackward_spec (avg m : ℚ) (havg : 0 < avg) :
    ∀ (N : ℕ) (grid : List ℚ), (⌈(grid.headD m - m) / avg⌉).toNat ≤ N →
      (extrapolateBackward avg m grid).headD m ≤ m
      ∧ ∃ pre : List ℚ,
          extrapolateBackward avg m grid = pre ++ grid
          ∧ ∀ i, i < pre.length →
              pre.getD i 0 = grid.headD m - ((pre.length - i : ℕ) : ℚ) * avg := by
  intro N
  induction N with
  | zero =>
    intro grid hN
    have hstop : ¬ (0 < avg ∧ m < grid.headD m) := by
      rintro ⟨_, hlt⟩
      have hp : 0 < (grid.headD m - m) / avg := div_pos (by linarith) havg
      have hp2 : 0 < ⌈(grid.headD m - m) / avg⌉ := Int.ceil_pos.mpr hp
      omega
    rw [extrapolateBackward_eq, dif_neg hstop]
    push_neg at hstop
    exact ⟨hstop havg, [], by simp, by simp⟩
  | succ N ih =>
    intro grid hN
    by_cases hc : 0 < avg ∧ m < grid.headD m
    · rw [extrapolateBackward_eq, dif_pos hc]
      have hmeas : (⌈(((grid.headD m - avg) :: grid).headD m - m) / avg⌉).toNat ≤ N := by
        simp only [List.headD_cons]
        have h1 : (grid.headD m - avg - m) / avg = (grid.headD m - m) / avg - 1 := by
          rw [show grid.headD m - avg - m = (grid.headD m - m) - avg by ring,
            sub_div, div_self (ne_of_gt havg)]
        have h2 : 0 < ⌈(grid.headD m - m) / avg⌉ :=
          Int.ceil_pos.mpr (div_pos (by linarith [hc.2]) havg)
        rw [h1, Int.ceil_sub_one]
        omega
      obtain ⟨hcov, pre, heq, hpre⟩ := ih ((grid.headD m - avg) :: grid) hmeas
      refine ⟨hcov, pre ++ [grid.headD m - avg], ?_, ?_⟩
      · rw [heq, List.append_assoc]
        rfl
      · intro i hi
        rw [List.length_append, List.length_singleton] at hi
        simp only [List.length_append, List.length_singleton]
        by_cases hii : i < pre.length
        · rw [List.getD_append _ _ _ _ hii]
          rw [hpre i hii]
          simp only [List.headD_cons]
          rw [Nat.cast_sub (by omega), Nat.cast_sub (by omega)]
          push_cast
          ring
        · have hieq : i = pre.length := by omega
          subst hieq
          rw [List.getD_append_right _ _ _ _ (le_refl _)]
          simp only [Nat.sub_self]
          have h1 : pre.length + 1 - pre.length = 1 := by omega
          rw [h1]
          simp only [List.headD_cons, List.getD_cons_zero]
          push_cast
          ring
    · rw [extrapolateBackward_eq, dif_neg hc]
      push_neg at hc
      exact ⟨hc havg, [], by simp, by simp⟩

theorem extrapolateForward_spec (avg M : ℚ) (havg : 0 < avg) :
    ∀ (N : ℕ) (grid : List ℚ), (⌈(M - grid.getLastD M) / avg⌉).toNat ≤ N →
      M ≤ (extrapolateForward avg M grid).getLastD M
      ∧ ∃ post : List ℚ,
          extrapolateForward avg M grid = grid ++ post
          ∧ ∀ j, j < post.length →
              post.getD j 0 = grid.getLastD M + ((j + 1 : ℕ) : ℚ) * avg := by
  intro N
  induction N with
  | zero =>
    intro grid hN
    have hstop : ¬ (0 < avg ∧ grid.getLastD M < M) := by
      rintro ⟨_, hlt⟩
      have hp : 0 < (M - grid.getLastD M) / avg := div_pos (by linarith) havg
      have hp2 : 0 < ⌈(M - grid.getLastD M) / avg⌉ := Int.ceil_pos.mpr hp
      omega
    rw [extrapolateForward_eq, dif_neg hstop]
    push_neg at hstop
    exact ⟨hstop havg, [], by simp, by simp⟩
  | succ N ih =>
    intro grid hN
    by_cases hc : 0 < avg ∧ grid.getLastD M < M
    · rw [extrapolateForward_eq, dif_pos hc]
      have hmeas : (⌈(M - (grid ++ [grid.getLastD M + avg]).getLastD M) / avg⌉).toNat
          ≤ N := by
        simp only [List.getLastD_concat]
        have h1 : (M - (grid.getLastD M + avg)) / avg
            = (M - grid.getLastD M) / avg - 1 := by
          rw [show M - (grid.getLastD M + avg) = (M - grid.getLastD M) - avg by ring,
            sub_div, div_self (ne_of_gt havg)]
        have h2 : 0 < ⌈(M - grid.getLastD M) / avg⌉ :=
          Int.ceil_pos.mpr (div_pos (by linarith [hc.2]) havg)
        rw [h1, Int.ceil_sub_one]
        omega
      obtain ⟨hcov, post, heq, hpost⟩ := ih (grid ++ [grid.getLastD M + avg]) hmeas
      refine ⟨hcov, (grid.getLastD M + avg) :: post, ?_, ?_⟩
      · rw [heq, List.append_assoc]
        rfl
      · intro j hj
        cases j with
        | zero =>
          simp
        | succ j =>
          have hj' : j < post.length := by
            simpa using Nat.lt_of_succ_lt_succ hj
          have hstep : ((grid.getLastD M + avg) :: post).getD (j + 1) 0
              = post.getD j 0 := rfl
          rw [hstep, hpost j hj']
          simp only [List.getLastD_concat]
          push_cast
          ring
    · rw [extrapolateForward_eq, dif_neg hc]
      push_neg at hc
      exact ⟨hc havg, [], by simp, by simp⟩

theorem headD_append_ne (l1 l2 : List ℚ) (h : l1 ≠ []) (d1 d2 : ℚ) :
    (l1 ++ l2).headD d1 = l1.headD d2 := by
  cases l1 with
  | nil => exact absurd rfl h
  | cons a t => rfl

theorem getLastD_ne (l : List ℚ) (h : l ≠ []) (d1 d2 : ℚ) :
    l.getLastD d1 = l.getLastD d2 := by
  cases l with
  | nil => exact absurd rfl h
  | cons a t => rw [List.getLastD_cons, List.getLastD_cons]

theorem getLastD_append_cons :
    ∀ (l1 : List ℚ) (a : ℚ) (t : List ℚ) (d : ℚ),
      (l1 ++ a :: t).getLastD d = t.getLastD a := by
  intro l1
  induction l1 with
  | nil => intro a t d; exact List.getLastD_cons d a t
  | cons b l ih =>
    intro a t d
    show (b :: (l ++ a :: t)).getLastD d = _
    rw [List.getLastD_cons, ih]

/-- C2 amended: with a positive spacing and a nonempty interpolated grid,
spacing-sized steps are prepended below the first grid line and appended
above the last one until the grid's first element is ≤ the minimum note
global Y and its last element is ≥ the maximum note global Y — but when no
notes were detected, those bounds default to 0 rather than the
extrapolation being skipped, so the grid is still extended to cover 0. -/
theorem extrapolation_amended (avg : ℚ) (noteYs grid : List ℚ)
    (havg : 0 < avg) (hg : grid ≠ []) :
    ((extrapolateGrid avg noteYs grid).headD 0 ≤ pyMin noteYs
      ∧ pyMax noteYs ≤ (extrapolateGrid avg noteYs grid).getLastD 0)
    ∧ (∃ pre post, extrapolateGrid avg noteYs grid = pre ++ grid ++ post
        ∧ (∀ i, i < pre.length →
            pre.getD i 0 = grid.headD 0 - ((pre.length - i : ℕ) : ℚ) * avg)
        ∧ (∀ j, j < post.length →
            post.getD j 0 = grid.getLastD 0 + ((j + 1 : ℕ) : ℚ) * avg))
    ∧ (noteYs = [] → pyMin noteYs = 0 ∧ pyMax noteYs = 0) := by
  obtain ⟨g0, gr, rfl⟩ := List.exists_cons_of_ne_nil hg
  obtain ⟨hBcov, pre, hBeq, hBpre⟩ :=
    extrapolateBackward_spec avg (pyMin noteYs) havg _ (g0 :: gr) (le_refl _)
  obtain ⟨hFcov, post, hFeq, hFpost⟩ :=
    extrapolateForward_spec avg (pyMax noteYs) havg _
      (extrapolateBackward avg (pyMin noteYs) (g0 :: gr)) (le_refl _)
  have hEG : extrapolateGrid avg noteYs (g0 :: gr)
      = extrapolateForward avg (pyMax noteYs)
          (extrapolateBackward avg (pyMin noteYs) (g0 :: gr)) := rfl
  rw [hBeq] at hFeq hFcov hFpost hBcov
  refine ⟨⟨?_, ?_⟩, ⟨pre, post, ?_, ?_, ?_⟩, ?_⟩
  · rw [hEG, hBeq, hFeq, headD_append_ne _ _ (by simp) 0 (pyMin noteYs)]
    exact hBcov
  · rw [hEG, hBeq, getLastD_ne _ ?hne 0 (pyMax noteYs)]
    case hne =>
      rw [hFeq]
      simp
    exact hFcov
  · rw [hEG, hBeq, hFeq, List.append_assoc]
  · intro i hi
    rw [hBpre i hi]
    simp [List.headD_cons]
  · intro j hj
    rw [hFpost j hj, getLastD_append_cons, List.getLastD_cons]
  · intro h
    subst h
    exact ⟨rfl, rfl⟩

/-- C2 witness: spacing 100, notes at global Y 50 and 250, interpolated
grid [100, 200]: one step is prepended and one appended. -/
theorem extrapolation_amended_witness :
    ((extrapolateGrid 100 [50, 250] [100, 200]).headD 0 ≤ pyMin [50, 250]
      ∧ pyMax [50, 250] ≤ (extrapolateGrid 100 [50, 250] [100, 200]).getLastD 0)
    ∧ (∃ pre post, extrapolateGrid 100 [50, 250] [100, 200]
          = pre ++ [100, 200] ++ post
        ∧ (∀ i, i < pre.length →
            pre.getD i 0 = ([100, 200] : List ℚ).headD 0
              - ((pre.length - i : ℕ) : ℚ) * 100)
        ∧ (∀ j, j < post.length →
            post.getD j 0 = ([100, 200] : List ℚ).getLastD 0
              + ((j + 1 : ℕ) : ℚ) * 100))
    ∧ (([50, 250] : List ℚ) = [] → pyMin [50, 250] = 0 ∧ pyMax [50, 250] = 0) :=
  extrapolation_amended 100 [50, 250] [100, 200] (by norm_num) (by simp)

/-- C2 counterexample: with no detected notes the extrapolation is NOT
skipped: both bounds default to 0 and the loop prepends a step, so the
interpolated grid [100, 200] becomes [0, 100, 200] ≠ [100, 200]. -/
theorem extrapolation_skip_counterexample :
    extrapolateGrid 100 [] [100, 200] = [0, 100, 200]
    ∧ extrapolateGrid 100 [] [100, 200] ≠ [100, 200] := by
  have h : extrapolateGrid 100 [] [100, 200] = [0, 100, 200] := by
    unfold extrapolateGrid pyMin pyMax
    have e1 : extrapolateBackward (100 : ℚ) 0 [100, 200]
        = extrapolateBackward 100 0 [0, 100, 200] := by
      rw [extrapolateBackward_eq, dif_pos (by norm_num)]
      norm_num
    have e2 : extrapolateBackward (100 : ℚ) 0 [0, 100, 200] = [0, 100, 200] := by
      rw [extrapolateBackward_eq, dif_neg (by norm_num)]
    have e3 : extrapolateForward (100 : ℚ) 0 [0, 100, 200] = [0, 100, 200] := by
      rw [extrapolateForward_eq, dif_neg (by norm_num [List.getLastD_cons])]
    rw [e1, e2, e3]
  refine ⟨h, by rw [h]; simp⟩

/-- C4 amended: every merged note segment shorter than the minimum height
is discarded (every emitted note has height ≥ min-height), and a bar-line
segment is reported iff its height is under 10 rows and its full-width
fill ratio exceeds 0.8 — but the minimum-height discard does NOT apply to
bar-line segments (a full-width bright run of height 1 or 2 passing the
fill check is still reported as a bar line). -/
theorem segment_acceptance_amended :
    (∀ (cfg : Config) (md : Metadata) (ci : ℕ) (baseY height : ℚ)
        (accBars : List ℚ) (lane : ℕ) (strip : List (List ℚ)) (n : Note),
        n ∈ notesOfLane cfg md ci baseY height accBars lane strip →
          (cfg.minHeight : ℚ) ≤ n.h)
    ∧ (∀ (threshold : ℚ) (gray : List (List ℚ)) (c : ℚ),
        c ∈ barCentersOfChunk threshold gray →
          ∃ se, se ∈ maskSegments (gray.map (isBarRow threshold))
            ∧ se.2 - se.1 < 10
            ∧ (0.8 : ℚ) < barFill threshold gray se.1 se.2
            ∧ c = (se.1 : ℚ) + ((se.2 - se.1 : ℕ) : ℚ) / 2) := by
  constructor
  · intro cfg md ci baseY height accBars lane strip n hn
    unfold notesOfLane at hn
    obtain ⟨se, hse, hf⟩ := List.mem_filterMap.mp hn
    split_ifs at hf with h1 h2
    · have hne := Option.some.inj hf
      rw [← hne]
      show (cfg.minHeight : ℚ) ≤ ((se.2 - se.1 : ℕ) : ℚ)
      exact_mod_cast Nat.le_of_not_lt h1
  · intro threshold gray c hc
    unfold barCentersOfChunk at hc
    obtain ⟨se, hse, hf⟩ := List.mem_filterMap.mp hc
    split_ifs at hf with h1 h2
    exact ⟨se, hse, h1, h2, (Option.some.inj hf).symm⟩

/-- A lane strip with a single 3-row solid bright band. -/
def stripSample : List (List ℚ) :=
  [[255, 255], [255, 255], [255, 255], [0, 0], [0, 0]]

/-- The note the detection pass emits from `stripSample`. -/
def noteSample : Note :=
  { chunk_index := 0, chunk_height := 5, chunk_base_y := 0, lane := 0,
    y := 3 / 2, h := 3, global_y := 7 / 2, time := 0, type := "hit" }

/-- C4 witness: the 3-row segment of `stripSample` is emitted and its
height meets the default minimum height 3. -/
theorem segment_acceptance_witness :
    ((⟨200, 3, 5⟩ : Config).minHeight : ℚ) ≤ noteSample.h := by
  apply segment_acceptance_amended.1 ⟨200, 3, 5⟩ ⟨none, none, none⟩ 0 0 5 [] 0
    stripSample noteSample
  norm_num [notesOfLane, mergeSegments, mergeSegmentsAux, maskSegments,
    maskSegmentsAux, isNoteRow, rowMax, rowMean, rowVar, timeOf,
    List.filterMap, noteSample, stripSample]

/-- C4 counterexample: a full-width bright band of height 2 — below the
default minimum note height 3 — is reported as a bar line (center 2),
showing the minimum-height discard is not applied to bar-line segments. -/
theorem bar_minheight_counterexample :
    maskSegments (([[0, 0], [255, 255], [255, 255], [0, 0]] : List (List ℚ)).map
        (isBarRow 200)) = [(1, 3)]
    ∧ barCentersOfChunk 200 [[0, 0], [255, 255], [255, 255], [0, 0]] = [2]
    ∧ (3 : ℕ) - 1 < 3 := by
  refine ⟨?_, ?_, by norm_num⟩
  · norm_num [maskSegments, maskSegmentsAux, isBarRow, rowMean]
  · norm_num [barCentersOfChunk, maskSegments, maskSegmentsAux, isBarRow,
      rowMean, barFill, blockRows, blockBrightCount, blockSize, List.filterMap]

/-- Chunk 0 of the two-chunk example: no bar line, one lane with one
3-row note band near the top (global Y 3.5). -/
def chunkA : Chunk :=
  { gray := [[0, 0], [0, 0], [0, 0], [0, 0], [0, 0]]
    lanes := [stripSample] }

/-- Chunk 1 of the two-chunk example: one thin full-width bar line near
the bottom (global Y 6.5), no notes. -/
def chunkB : Chunk :=
  { gray := [[0, 0], [0, 0], [0, 0], [255, 255], [0, 0]]
    lanes := [[[0, 0], [0, 0], [0, 0], [0, 0], [0, 0]]] }

/-- C10: a merged, tall-enough note segment produces no output note
whenever its global Y center lies strictly within 5 px of a bar-line
detection collected so far: every note emitted by the detection pass is
at distance ≥ 5 from every bar line in the accumulator it was checked
against, and per chunk that accumulator is exactly the bars through the
current chunk (pass 1 of the same chunk runs first).  Bar lines detected
only in later chunks do not suppress a note: in the concrete two-chunk
run the chunk-0 note at global Y 3.5 survives although chunk 1 later
contributes a bar line at global Y 6.5, within 5 px of it. -/
theorem bar_suppression_spec :
    (∀ (cfg : Config) (md : Metadata) (ci : ℕ) (baseY height : ℚ)
        (accBars : List ℚ) (lane : ℕ) (strip : List (List ℚ)) (n : Note)
        (b : ℚ), n ∈ notesOfLane cfg md ci baseY height accBars lane strip →
        b ∈ accBars → 5 ≤ |b - n.global_y|)
    ∧ (∀ (cfg : Config) (md : Metadata) (st : ScanState) (idx : ℕ) (c : Chunk),
        (processChunk cfg md st idx c).notes
          = st.notes ++ (c.lanes.enum.map fun p =>
              notesOfLane cfg md idx st.baseY (c.gray.length : ℚ)
                ((processChunk cfg md st idx c).bars) p.1 p.2).flatten)
    ∧ ((runChunks ⟨200, 3, 5⟩ ⟨none, none, none⟩ [chunkA, chunkB]).bars
          = [13 / 2]
        ∧ (runChunks ⟨200, 3, 5⟩ ⟨none, none, none⟩ [chunkA, chunkB]).notes
          = [noteSample]
        ∧ |(13 : ℚ) / 2 - noteSample.global_y| < 5) := by
  refine ⟨?_, fun cfg md st idx c => rfl, ?_, ?_, ?_⟩
  · intro cfg md ci baseY height accBars lane strip n b hn hb
    unfold notesOfLane at hn
    obtain ⟨se, hse, hf⟩ := List.mem_filterMap.mp hn
    split_ifs at hf with h1 h2
    have hne := Option.some.inj hf
    rw [List.any_eq_true] at h2
    push_neg at h2
    have hb2 := h2 b hb
    simp only [ne_eq, decide_eq_true_eq] at hb2
    rw [← hne]
    show 5 ≤ |b - (baseY + (height - ((se.1 : ℚ) + ((se.2 - se.1 : ℕ) : ℚ) / 2)))|
    exact not_lt.mp hb2
  · norm_num [runChunks, processChunk, barCentersOfChunk, notesOfLane,
      maskSegments, maskSegmentsAux, mergeSegments, mergeSegmentsAux,
      isBarRow, isNoteRow, rowMax, rowMean, rowVar, barFill, blockRows,
      blockBrightCount, blockSize, timeOf, List.filterMap, List.enum,
      List.enumFrom, chunkA, chunkB, stripSample, noteSample]
  · norm_num [runChunks, processChunk, barCentersOfChunk, notesOfLane,
      maskSegments, maskSegmentsAux, mergeSegments, mergeSegmentsAux,
      isBarRow, isNoteRow, rowMax, rowMean, rowVar, barFill, blockRows,
      blockBrightCount, blockSize, timeOf, List.filterMap, List.enum,
      List.enumFrom, chunkA, chunkB, stripSample, noteSample]
  · norm_num [noteSample]

/-- C10 witness: a note far from the only collected bar line is emitted
and indeed lies at distance ≥ 5 from it. -/
theorem bar_suppression_witness :
    5 ≤ |(100 : ℚ) - noteSample.global_y| := by
  apply bar_suppression_spec.1 ⟨200, 3, 5⟩ ⟨none, none, none⟩ 0 0 5 [100] 0
    stripSample noteSample 100
  · norm_num [notesOfLane, mergeSegments, mergeSegmentsAux, maskSegments,
      maskSegmentsAux, isNoteRow, rowMax, rowMean, rowVar, timeOf,
      List.filterMap, noteSample, stripSample]
    have habs : ¬(|(193 : ℚ) / 2| < 5) := by
      rw [abs_of_nonneg (by norm_num : (0 : ℚ) ≤ 193 / 2)]
      norm_num
    rw [if_neg habs]
    simp
  · simp

end Mania2Midi







